import Mathlib

/-!
Shallow embedding of `src/tree/binarytree.hpp` (class `BinaryTree<T>`,
instantiated at `T = Int`), together with theorems settling the spec claims.

Modelling conventions:
* A `std::unique_ptr<TreeNode<T>>` that may be null is the inductive `TreeNode`:
  `nil` is the null pointer, `node v l r` is an owned `TreeNode {value, left,
  right}`.
* The class `BinaryTree` (fields `root`, `order`) is the structure `BinaryTree`.
* C++ `throw EmptyTreeException()` is `Except.error TreeErr.emptyTree`.
* The `insert` descent loop does not advance when the inserted value equals the
  current node's value; that non-termination is modelled two ways: a
  fuel-indexed `insertLoopGo` that spends one unit of fuel per loop iteration
  (so an input on which the C++ loop runs forever yields `none` for every
  fuel), and a structural `insertOpt` whose `none` result marks the same
  divergence.  Their agreement is proved (`insertLoopGo_eq_insertOpt`,
  `insertLoopGo_none`).
* `balance` computes the upper bound of the rebuild range as
  `v.size() - 1` in `size_t` (64-bit unsigned, wrapping) and passes it to the
  `int` parameter `high` of `makeNode`; both the unsigned wrap and the
  narrowing conversion to a 32-bit two's-complement `int` are modelled
  (`sizeTsub1`, `int32ofNat`).  Inside `makeNode` the index arithmetic is
  modelled with unbounded `Int`; this agrees with the source's 32-bit `int`
  arithmetic only while `low + high` stays within the `int` range, i.e.
  while the vector holds at most `2^30` elements — the theorem about
  `balance` therefore assumes at most `2^30` stored elements, keeping every
  `low + high` it covers at most `2^31 - 2`.  C++ `/` on `int` truncates
  toward zero, which is `Int.tdiv`.
-/

/-- `enum VisitingOrder { InOrder, PreOrder, PostOrder }`. -/
inductive VisitingOrder where
  | InOrder
  | PreOrder
  | PostOrder
deriving DecidableEq, Repr

/-- The only domain error: `EmptyTreeException`. -/
inductive TreeErr where
  | emptyTree
deriving DecidableEq, Repr

/-- `TreeNode<T>` behind a possibly-null `unique_ptr`: `nil` is the null
pointer, `node v l r` holds `value = v`, `left = l`, `right = r`. -/
inductive TreeNode where
  | nil
  | node (value : Int) (left : TreeNode) (right : TreeNode)
deriving DecidableEq, Repr

namespace TreeNode

/-- Number of nodes (used only as a termination measure). -/
def size : TreeNode → Nat
  | nil => 0
  | node _ l r => size l + size r + 1

/-- `makeInOrderVector`: in-order collection of the stored values
(left subtree, then the node's value, then right subtree). -/
def makeInOrderVector : TreeNode → List Int
  | nil => []
  | node v l r => makeInOrderVector l ++ v :: makeInOrderVector r

/-- Is `x` stored at some node of the tree? -/
def memT (x : Int) : TreeNode → Bool
  | nil => false
  | node v l r => x = v || memT x l || memT x r

/-- `recursiveGetHeight`: 0 for null, else `1 + max` of the children. -/
def recursiveGetHeight : TreeNode → Nat
  | nil => 0
  | node _ l r => max (recursiveGetHeight l) (recursiveGetHeight r) + 1

/-- One-shot insertion following the `insert` descent loop's terminating
behaviour: go right while `val > tmp->value`, left while `val < tmp->value`,
and attach a fresh leaf where a null child is reached.  When the descent
meets a node whose value equals `val` the C++ loop stops advancing and never
terminates; that case is `none`. -/
def insertOpt (t : TreeNode) (val : Int) : Option TreeNode :=
  match t with
  | nil => some (node val nil nil)
  | node v l r =>
    if val > v then (insertOpt r val).map (fun rr => node v l rr)
    else if val < v then (insertOpt l val).map (fun ll => node v ll r)
    else none

/-- The `insert` while-loop itself, one unit of fuel per iteration of
`while(tmp != nullptr)`.  At a node: `val > value` steps into the right
child, `val < value` steps into the left child, and on equality the body
changes nothing and the loop re-runs on the same state.  Reaching a null
`tmp` exits the loop and attaches `new Node(val)` on the side of `prev`
given by the same comparison that moved there. -/
def insertLoopGo (val : Int) : Nat → TreeNode → Option TreeNode
  | 0, _ => none
  | _ + 1, nil => some (node val nil nil)
  | fuel + 1, node v l r =>
    if val > v then (insertLoopGo val fuel r).map (fun rr => node v l rr)
    else if val < v then (insertLoopGo val fuel l).map (fun ll => node v ll r)
    else insertLoopGo val fuel (node v l r)

/-- `contains` descent: found on equality, left child when the current value
exceeds the target, else right child. -/
def containsT (t : TreeNode) (val : Int) : Bool :=
  match t with
  | nil => false
  | node v l r =>
    if v = val then true
    else if v > val then containsT l val else containsT r val

/-- The `while(leftmost->left != nullptr)` walk in the two-children delete
case: value of the leftmost node of a (non-null) subtree. -/
def leftmostValue : TreeNode → Int
  | nil => 0
  | node v l _ => match l with
    | nil => v
    | node .. => leftmostValue l

/-- `removeNode`: overwrite the owning slot with the right child when the
left child is null, else with the left child. -/
def removeNode : TreeNode → TreeNode
  | nil => nil
  | node _ l r => match l with
    | nil => r
    | node .. => l

/-- `recursiveDelete(node, val)`: returns the flag and the subtree left in
the slot.  On a match with two children it copies the value of the leftmost
node of the right subtree into the node and then calls
`removeNode(node->right)`; on a match with at most one child it calls
`removeNode(node)`; otherwise it recurses left when `val < node->value`,
else right. -/
def recursiveDelete (t : TreeNode) (val : Int) : Bool × TreeNode :=
  match t with
  | nil => (false, nil)
  | node v l r =>
    if v = val then
      match l, r with
      | node vl ll rl, node vr lr rr =>
        (true, node (leftmostValue (node vr lr rr))
                    (node vl ll rl)
                    (removeNode (node vr lr rr)))
      | _, _ => (true, removeNode (node v l r))
    else if val < v then
      let (b, l2) := recursiveDelete l val
      (b, node v l2 r)
    else
      let (b, r2) := recursiveDelete r val
      (b, node v l r2)

/-- `recursiveInOrder` as written in the source: a space, the node's value,
then the rendering of the left subtree, then of the right subtree. -/
def recursiveInOrder : TreeNode → String
  | nil => ""
  | node v l r => " " ++ toString v ++ recursiveInOrder l ++ recursiveInOrder r

/-- `recursivePreOrder` as written in the source: the rendering of the left
subtree, then a space and the node's value, then the right subtree. -/
def recursivePreOrder : TreeNode → String
  | nil => ""
  | node v l r => recursivePreOrder l ++ " " ++ toString v ++ recursivePreOrder r

/-- `recursivePostOrder`: left subtree, right subtree, then a space and the
node's value. -/
def recursivePostOrder : TreeNode → String
  | nil => ""
  | node v l r => recursivePostOrder l ++ recursivePostOrder r ++ " " ++ toString v

/-- `while(right->right != nullptr)` walk of `getMax`: value of the
rightmost node of a (non-null) subtree. -/
def rightmostValue : TreeNode → Int
  | nil => 0
  | node v _ r => match r with
    | nil => v
    | node .. => rightmostValue r

end TreeNode

/-- `makeNode(low, high, v)`: null when `low > high`; otherwise a node
holding `v[mid]` with `mid = (low + high) / 2` (C++ `int` division truncates
toward zero, i.e. `Int.tdiv`), whose children rebuild the sub-ranges
`(low, mid-1)` and `(mid+1, high)`.  On every path the code executes,
`0 ≤ low ≤ mid ≤ high < v.length`, so the out-of-range default of `getD` is
never consulted.  The sum `low + high` is unbounded `Int` here while the
source computes it in 32-bit `int`; the two agree exactly when
`low + high ≤ 2^31 - 1`, which the `balance` theorem guarantees by bounding
the element count by `2^30`. -/
def makeNode (low high : Int) (v : List Int) : TreeNode :=
  if low > high then TreeNode.nil
  else
    TreeNode.node (v.getD ((low + high).tdiv 2).toNat 0)
      (makeNode low ((low + high).tdiv 2 - 1) v)
      (makeNode ((low + high).tdiv 2 + 1) high v)
termination_by (high + 1 - low).toNat
decreasing_by
  all_goals
    rename_i hgt
    rw [not_lt] at hgt
    have hmid : low ≤ (low + high).tdiv 2 ∧ (low + high).tdiv 2 ≤ high := by
      rcases le_or_lt 0 (low + high) with hs | hs
      · rw [Int.tdiv_eq_ediv hs (by norm_num)]
        omega
      · have hrw : low + high = -(-(low + high)) := by ring
        rw [hrw, Int.neg_tdiv, Int.tdiv_eq_ediv (by omega) (by norm_num)]
        omega
    omega

/-- `v.size() - 1` computed in `size_t`: 64-bit unsigned subtraction, which
wraps to `2^64 - 1` when `v` is empty. -/
def sizeTsub1 (n : Nat) : Nat := (n + (2 ^ 64 - 1)) % 2 ^ 64

/-- Narrowing conversion of a `size_t` value to a 32-bit two's-complement
`int` (reduce modulo `2^32`, reinterpret the high range as negative). -/
def int32ofNat (u : Nat) : Int :=
  if u % 2 ^ 32 < 2 ^ 31 then ((u % 2 ^ 32 : Nat) : Int)
  else ((u % 2 ^ 32 : Nat) : Int) - 2 ^ 32

/-- The class `BinaryTree<T>` at `T = Int`: an owned root pointer and the
stored traversal order. -/
structure BinaryTree where
  root : TreeNode
  order : VisitingOrder
deriving DecidableEq, Repr

namespace BinaryTree

/-- `BinaryTree()`: null root, order `InOrder`. -/
def mkEmpty : BinaryTree := ⟨TreeNode.nil, VisitingOrder.InOrder⟩

/-- `insert` on the class: `none` when the C++ call never returns (the
descent loop meets an equal value), otherwise the updated tree.  An empty
tree takes the value as its root. -/
def insert (b : BinaryTree) (val : Int) : Option BinaryTree :=
  (b.root.insertOpt val).map (fun t => ⟨t, b.order⟩)

/-- `contains` on the class (false on an empty tree, else the descent). -/
def contains (b : BinaryTree) (val : Int) : Bool :=
  b.root.containsT val

/-- `deleteElement`: false on an empty tree, else `recursiveDelete(root, val)`;
the pair carries the returned flag and the post-state of the root. -/
def deleteElement (b : BinaryTree) (val : Int) : Bool × BinaryTree :=
  match b.root with
  | TreeNode.nil => (false, b)
  | t =>
    let p := t.recursiveDelete val
    (p.1, ⟨p.2, b.order⟩)

/-- `getHeight` = `recursiveGetHeight(root)`. -/
def getHeight (b : BinaryTree) : Nat :=
  b.root.recursiveGetHeight

/-- `isBalanced`: true for a null root, else the heights of the two child
subtrees differ by at most 1 (`size_t` absolute difference). -/
def isBalanced (b : BinaryTree) : Bool :=
  match b.root with
  | TreeNode.nil => true
  | TreeNode.node _ l r =>
    (if l.recursiveGetHeight > r.recursiveGetHeight
     then l.recursiveGetHeight - r.recursiveGetHeight
     else r.recursiveGetHeight - l.recursiveGetHeight) ≤ 1

/-- `getMax`: throws `EmptyTreeException` on a null root, else the value at
the end of the `right` chain. -/
def getMax (b : BinaryTree) : Except TreeErr Int :=
  match b.root with
  | TreeNode.nil => Except.error TreeErr.emptyTree
  | t => Except.ok t.rightmostValue

/-- `getMin`: throws `EmptyTreeException` on a null root, else the value at
the end of the `left` chain. -/
def getMin (b : BinaryTree) : Except TreeErr Int :=
  match b.root with
  | TreeNode.nil => Except.error TreeErr.emptyTree
  | t => Except.ok t.leftmostValue

/-- `balance()`: collect the in-order vector `v`, then
`root = makeNode(0, v.size() - 1, v)` — the upper bound goes through the
`size_t` subtraction and the narrowing conversion to the `int` parameter. -/
def balance (b : BinaryTree) : BinaryTree :=
  let v := b.root.makeInOrderVector
  ⟨makeNode 0 (int32ofNat (sizeTsub1 v.length)) v, b.order⟩

/-- `print()`: empty string for a null root, else dispatch on the stored
order to the three recursive renderers. -/
def print (b : BinaryTree) : String :=
  match b.root with
  | TreeNode.nil => ""
  | t =>
    match b.order with
    | VisitingOrder.InOrder => t.recursiveInOrder
    | VisitingOrder.PreOrder => t.recursivePreOrder
    | VisitingOrder.PostOrder => t.recursivePostOrder

/-- `operator<<`: the traversal string wrapped as `[` … ` ]`. -/
def render (b : BinaryTree) : String :=
  "[" ++ b.print ++ " ]"

/-- The copy-constructor walk: visit `curr`, insert its value into the tree
under construction, push a non-null right child on `remaining`, then step to
the left child if non-null, else pop the stack (stopping when it is empty).
`none` when one of the `insert` calls never returns. -/
def copyLoop : TreeNode → List TreeNode → TreeNode → Option TreeNode
  | TreeNode.nil, _, acc => some acc
  | TreeNode.node v l r, remaining, acc =>
    match acc.insertOpt v with
    | none => none
    | some acc2 =>
      let remaining2 := match r with
        | TreeNode.nil => remaining
        | TreeNode.node .. => r :: remaining
      match l with
      | TreeNode.node vl ll rl => copyLoop (TreeNode.node vl ll rl) remaining2 acc2
      | TreeNode.nil =>
        match h : remaining2 with
        | [] => some acc2
        | c :: rest => copyLoop c rest acc2
termination_by curr remaining _ => curr.size + (remaining.map TreeNode.size).sum
decreasing_by
  · cases r <;> simp_all [TreeNode.size] <;> omega
  · unfold remaining2 at h
    cases r with
    | nil =>
      subst h
      simp only [TreeNode.size, List.map_cons, List.sum_cons]
      omega
    | node vr lr rr =>
      rw [List.cons.injEq] at h
      obtain ⟨h1, h2⟩ := h
      subst h1
      subst h2
      simp only [TreeNode.size, List.map_cons, List.sum_cons]
      omega

/-- `BinaryTree(const BinaryTree&)`: start from a null root, run the walk
over `other`, and finally take over `other`'s order. -/
def copyCtor (other : BinaryTree) : Option BinaryTree :=
  (copyLoop other.root [] TreeNode.nil).map (fun t => ⟨t, other.order⟩)

/-- Post-state of the assigned-to object after `a = b` for distinct objects:
`operator=` constructs the local temporary `BinaryTree(other)` (whose
insertion walk must return) and returns it without ever writing to `*this`,
so the assigned-to object keeps its old state. -/
def operatorAssignPost (self other : BinaryTree) : Option BinaryTree :=
  (copyCtor other).map (fun _ => self)

end BinaryTree

/-- A tree grown from the empty tree by `insert` calls, `none` as soon as
one call diverges. -/
def buildOpt (vs : List Int) : Option TreeNode :=
  vs.foldlM TreeNode.insertOpt TreeNode.nil

namespace TreeNode

/-- Every stored value satisfies `p`. -/
def ForallT (p : Int → Prop) : TreeNode → Prop
  | nil => True
  | node v l r => p v ∧ ForallT p l ∧ ForallT p r

/-- The search-tree invariant the insertion algorithm maintains: values in
the left subtree are strictly smaller, values in the right subtree strictly
larger, recursively. -/
def IsBST : TreeNode → Prop
  | nil => True
  | node v l r => IsBST l ∧ IsBST r ∧ ForallT (· < v) l ∧ ForallT (v < ·) r

end TreeNode

namespace TreeNode

theorem ForallT_memT {p : Int → Prop} :
    ∀ {t : TreeNode}, ForallT p t → ∀ {x : Int}, memT x t = true → p x := by
  intro t
  induction t with
  | nil => intro _ x hx; simp [memT] at hx
  | node v l r ihl ihr =>
    intro hf x hx
    simp only [memT, Bool.or_eq_true, decide_eq_true_eq] at hx
    rcases hx with (rfl | hx) | hx
    · exact hf.1
    · exact ihl hf.2.1 hx
    · exact ihr hf.2.2 hx

theorem mem_makeInOrderVector {x : Int} :
    ∀ {t : TreeNode}, x ∈ t.makeInOrderVector ↔ memT x t = true := by
  intro t
  induction t with
  | nil => simp [makeInOrderVector, memT]
  | node v l r ihl ihr =>
    simp only [makeInOrderVector, memT, List.mem_append, List.mem_cons,
      Bool.or_eq_true, decide_eq_true_eq, ihl, ihr]
    tauto

theorem insertOpt_isSome_of_not_memT {val : Int} :
    ∀ {t : TreeNode}, memT val t = false → ∃ u, insertOpt t val = some u := by
  intro t
  induction t with
  | nil => intro _; exact ⟨node val nil nil, rfl⟩
  | node v l r ihl ihr =>
    intro hm
    simp only [memT, Bool.or_eq_false_iff, decide_eq_false_iff_not] at hm
    by_cases hgt : val > v
    · obtain ⟨u, hu⟩ := ihr hm.2
      exact ⟨node v l u, by simp [insertOpt, hgt, hu]⟩
    · have hlt : val < v := lt_of_le_of_ne (not_lt.mp hgt) hm.1.1
      obtain ⟨u, hu⟩ := ihl hm.1.2
      exact ⟨node v u r, by simp [insertOpt, hgt, hlt, hu]⟩

theorem memT_insertOpt {val : Int} :
    ∀ {t u : TreeNode}, insertOpt t val = some u →
      ∀ x, (memT x u = true ↔ x = val ∨ memT x t = true) := by
  intro t
  induction t with
  | nil =>
    intro u hu x
    simp only [insertOpt, Option.some.injEq] at hu
    subst hu
    simp [memT]
  | node v l r ihl ihr =>
    intro u hu x
    simp only [insertOpt] at hu
    by_cases hgt : val > v
    · rw [if_pos hgt] at hu
      rcases hr : insertOpt r val with _ | rr
      · rw [hr] at hu; simp at hu
      · rw [hr] at hu
        simp only [Option.map_some', Option.some.injEq] at hu
        subst hu
        simp only [memT, Bool.or_eq_true, ihr hr x]
        tauto
    · by_cases hlt : val < v
      · rw [if_neg hgt, if_pos hlt] at hu
        rcases hl : insertOpt l val with _ | ll
        · rw [hl] at hu; simp at hu
        · rw [hl] at hu
          simp only [Option.map_some', Option.some.injEq] at hu
          subst hu
          simp only [memT, Bool.or_eq_true, ihl hl x]
          tauto
      · rw [if_neg hgt, if_neg hlt] at hu
        simp at hu

theorem ForallT_insertOpt {p : Int → Prop} {val : Int} :
    ∀ {t u : TreeNode}, ForallT p t → p val → insertOpt t val = some u →
      ForallT p u := by
  intro t
  induction t with
  | nil =>
    intro u hf hp hu
    simp only [insertOpt, Option.some.injEq] at hu
    subst hu
    exact ⟨hp, trivial, trivial⟩
  | node v l r ihl ihr =>
    intro u hf hp hu
    simp only [insertOpt] at hu
    by_cases hgt : val > v
    · rw [if_pos hgt] at hu
      rcases hr : insertOpt r val with _ | rr
      · rw [hr] at hu; simp at hu
      · rw [hr] at hu
        simp only [Option.map_some', Option.some.injEq] at hu
        subst hu
        exact ⟨hf.1, hf.2.1, ihr hf.2.2 hp hr⟩
    · by_cases hlt : val < v
      · rw [if_neg hgt, if_pos hlt] at hu
        rcases hl : insertOpt l val with _ | ll
        · rw [hl] at hu; simp at hu
        · rw [hl] at hu
          simp only [Option.map_some', Option.some.injEq] at hu
          subst hu
          exact ⟨hf.1, ihl hf.2.1 hp hl, hf.2.2⟩
      · rw [if_neg hgt, if_neg hlt] at hu
        simp at hu

theorem IsBST_insertOpt {val : Int} :
    ∀ {t u : TreeNode}, IsBST t → insertOpt t val = some u → IsBST u := by
  intro t
  induction t with
  | nil =>
    intro u _ hu
    simp only [insertOpt, Option.some.injEq] at hu
    subst hu
    exact ⟨trivial, trivial, trivial, trivial⟩
  | node v l r ihl ihr =>
    intro u hb hu
    simp only [insertOpt] at hu
    by_cases hgt : val > v
    · rw [if_pos hgt] at hu
      rcases hr : insertOpt r val with _ | rr
      · rw [hr] at hu; simp at hu
      · rw [hr] at hu
        simp only [Option.map_some', Option.some.injEq] at hu
        subst hu
        exact ⟨hb.1, ihr hb.2.1 hr, hb.2.2.1, ForallT_insertOpt hb.2.2.2 hgt hr⟩
    · by_cases hlt : val < v
      · rw [if_neg hgt, if_pos hlt] at hu
        rcases hl : insertOpt l val with _ | ll
        · rw [hl] at hu; simp at hu
        · rw [hl] at hu
          simp only [Option.map_some', Option.some.injEq] at hu
          subst hu
          exact ⟨ihl hb.1 hl, hb.2.1, ForallT_insertOpt hb.2.2.1 hlt hl, hb.2.2.2⟩
      · rw [if_neg hgt, if_neg hlt] at hu
        simp at hu

theorem sorted_makeInOrderVector :
    ∀ {t : TreeNode}, IsBST t → List.Sorted (· < ·) t.makeInOrderVector := by
  intro t
  induction t with
  | nil => intro _; simp [makeInOrderVector]
  | node v l r ihl ihr =>
    intro hb
    simp only [makeInOrderVector, List.Sorted, List.pairwise_append,
      List.pairwise_cons, List.mem_cons]
    refine ⟨ihl hb.1, ⟨?_, ihr hb.2.1⟩, ?_⟩
    · intro b hbmem
      exact ForallT_memT hb.2.2.2 (mem_makeInOrderVector.mp hbmem)
    · intro a hamem b hbmem
      have ha : a < v := ForallT_memT hb.2.2.1 (mem_makeInOrderVector.mp hamem)
      rcases hbmem with rfl | hbmem
      · exact ha
      · exact ha.trans (ForallT_memT hb.2.2.2 (mem_makeInOrderVector.mp hbmem))

theorem containsT_eq_memT {val : Int} :
    ∀ {t : TreeNode}, IsBST t → containsT t val = memT val t := by
  intro t
  induction t with
  | nil => intro _; simp [containsT, memT]
  | node v l r ihl ihr =>
    intro hb
    simp only [containsT, memT]
    by_cases hv : v = val
    · simp [hv]
    · have hne : ¬ val = v := fun h => hv h.symm
      by_cases hgt : v > val
      · have hnr : memT val r = false := by
          cases hmr : memT val r
          · rfl
          · exact absurd (ForallT_memT hb.2.2.2 hmr) (by omega)
        simp [hv, hgt, hne, hnr, ihl hb.1]
      · have hnl : memT val l = false := by
          cases hml : memT val l
          · rfl
          · exact absurd (ForallT_memT hb.2.2.1 hml) (by omega)
        simp [hv, hgt, hne, hnl, ihr hb.2.1]

end TreeNode

theorem buildOpt_go :
    ∀ (vs : List Int) (t0 t : TreeNode), TreeNode.IsBST t0 →
      List.foldlM TreeNode.insertOpt t0 vs = some t →
      TreeNode.IsBST t ∧
        (∀ x, TreeNode.memT x t = true ↔ TreeNode.memT x t0 = true ∨ x ∈ vs) := by
  intro vs
  induction vs with
  | nil =>
    intro t0 t hb h
    simp only [List.foldlM_nil, Option.pure_def, Option.some.injEq] at h
    subst h
    simp [hb]
  | cons a as ih =>
    intro t0 t hb h
    rw [List.foldlM_cons] at h
    rcases h1 : TreeNode.insertOpt t0 a with _ | t1
    · rw [h1] at h; simp at h
    · rw [h1] at h
      simp only [Option.bind_eq_bind, Option.some_bind] at h
      obtain ⟨hbst, hmem⟩ := ih t1 t (TreeNode.IsBST_insertOpt hb h1) h
      refine ⟨hbst, fun x => ?_⟩
      rw [hmem x, TreeNode.memT_insertOpt h1 x]
      simp only [List.mem_cons]
      tauto

theorem buildOpt_sound {vs : List Int} {t : TreeNode} (h : buildOpt vs = some t) :
    TreeNode.IsBST t ∧ (∀ x, TreeNode.memT x t = true ↔ x ∈ vs) := by
  obtain ⟨hb, hm⟩ := buildOpt_go vs TreeNode.nil t trivial h
  refine ⟨hb, fun x => ?_⟩
  rw [hm x]
  simp [TreeNode.memT]

/-- C5: every tree obtained from the empty tree by a sequence of `insert`
calls (all of which returned) has a non-decreasing in-order sequence. -/
theorem claim_C5 (vs : List Int) (t : TreeNode) (h : buildOpt vs = some t) :
    List.Sorted (· ≤ ·) t.makeInOrderVector :=
  (TreeNode.sorted_makeInOrderVector (buildOpt_sound h).1).imp
    (fun hab => le_of_lt hab)

theorem claim_C5_witness :
    List.Sorted (· ≤ ·)
      (TreeNode.node 5 (TreeNode.node 3 TreeNode.nil TreeNode.nil)
        (TreeNode.node 8 TreeNode.nil TreeNode.nil)).makeInOrderVector :=
  claim_C5 [5, 3, 8]
    (TreeNode.node 5 (TreeNode.node 3 TreeNode.nil TreeNode.nil)
      (TreeNode.node 8 TreeNode.nil TreeNode.nil)) (by decide)

/-- C6: after inserting a duplicate-free list of values into an initially
empty tree, `contains` is true exactly on the inserted values; on the empty
tree `contains` is always false. -/
theorem claim_C6 (vs : List Int) (t : TreeNode) (hnd : vs.Nodup)
    (h : buildOpt vs = some t) :
    (∀ v ∈ vs, t.containsT v = true) ∧
      (∀ w, w ∉ vs → t.containsT w = false) ∧
      (∀ w, BinaryTree.mkEmpty.contains w = false) := by
  obtain ⟨hb, hm⟩ := buildOpt_sound h
  refine ⟨?_, ?_, fun w => rfl⟩
  · intro v hv
    rw [TreeNode.containsT_eq_memT hb]
    exact (hm v).mpr hv
  · intro w hw
    rw [TreeNode.containsT_eq_memT hb]
    cases hx : TreeNode.memT w t
    · rfl
    · exact absurd ((hm w).mp hx) hw

theorem claim_C6_witness :
    (∀ v ∈ [5, 3, 8], (TreeNode.node 5 (TreeNode.node 3 TreeNode.nil TreeNode.nil)
        (TreeNode.node 8 TreeNode.nil TreeNode.nil)).containsT v = true) ∧
      (∀ w, w ∉ [5, 3, 8] →
        (TreeNode.node 5 (TreeNode.node 3 TreeNode.nil TreeNode.nil)
          (TreeNode.node 8 TreeNode.nil TreeNode.nil)).containsT w = false) ∧
      (∀ w, BinaryTree.mkEmpty.contains w = false) :=
  claim_C6 [5, 3, 8]
    (TreeNode.node 5 (TreeNode.node 3 TreeNode.nil TreeNode.nil)
      (TreeNode.node 8 TreeNode.nil TreeNode.nil)) (by decide) (by decide)

theorem TreeNode.recursiveDelete_not_mem :
    ∀ {t : TreeNode} {val : Int}, TreeNode.memT val t = false →
      t.recursiveDelete val = (false, t) := by
  intro t
  induction t with
  | nil => intro val _; rfl
  | node v l r ihl ihr =>
    intro val hm
    simp only [TreeNode.memT, Bool.or_eq_false_iff, decide_eq_false_iff_not] at hm
    have hne : ¬ v = val := fun h => hm.1.1 h.symm
    by_cases hlt : val < v
    · simp [TreeNode.recursiveDelete, hne, hlt, ihl hm.1.2]
    · simp [TreeNode.recursiveDelete, hne, hlt, ihr hm.2]

/-- C9: deleting a value stored nowhere in the tree returns false and
leaves the tree unchanged. -/
theorem claim_C9 (b : BinaryTree) (val : Int) (h : TreeNode.memT val b.root = false) :
    b.deleteElement val = (false, b) := by
  obtain ⟨root, order⟩ := b
  cases root with
  | nil => rfl
  | node v l r =>
    simp only [BinaryTree.deleteElement, TreeNode.recursiveDelete_not_mem h]

theorem claim_C9_witness :
    BinaryTree.deleteElement
        ⟨TreeNode.node 5 (TreeNode.node 3 TreeNode.nil TreeNode.nil) TreeNode.nil,
          VisitingOrder.InOrder⟩ 4 =
      (false,
        ⟨TreeNode.node 5 (TreeNode.node 3 TreeNode.nil TreeNode.nil) TreeNode.nil,
          VisitingOrder.InOrder⟩) :=
  claim_C9
    ⟨TreeNode.node 5 (TreeNode.node 3 TreeNode.nil TreeNode.nil) TreeNode.nil,
      VisitingOrder.InOrder⟩ 4 (by decide)

theorem TreeNode.makeInOrderVector_eq_leftmost_cons :
    ∀ {t : TreeNode}, t ≠ TreeNode.nil →
      ∃ rest, t.makeInOrderVector = t.leftmostValue :: rest := by
  intro t
  induction t with
  | nil => intro h; exact absurd rfl h
  | node v l r ihl _ =>
    intro _
    cases l with
    | nil => exact ⟨r.makeInOrderVector, rfl⟩
    | node vl ll rl =>
      obtain ⟨rest, hrest⟩ := ihl (by simp)
      refine ⟨rest ++ v :: r.makeInOrderVector, ?_⟩
      show (TreeNode.node vl ll rl).makeInOrderVector ++ v :: r.makeInOrderVector =
        (TreeNode.node vl ll rl).leftmostValue :: (rest ++ v :: r.makeInOrderVector)
      rw [hrest]
      simp

theorem TreeNode.makeInOrderVector_eq_concat_rightmost :
    ∀ {t : TreeNode}, t ≠ TreeNode.nil →
      ∃ rest, t.makeInOrderVector = rest ++ [t.rightmostValue] := by
  intro t
  induction t with
  | nil => intro h; exact absurd rfl h
  | node v l r _ ihr =>
    intro _
    cases r with
    | nil => exact ⟨l.makeInOrderVector, rfl⟩
    | node vr lr rr =>
      obtain ⟨rest, hrest⟩ := ihr (by simp)
      refine ⟨l.makeInOrderVector ++ v :: rest, ?_⟩
      show l.makeInOrderVector ++ v :: (TreeNode.node vr lr rr).makeInOrderVector =
        (l.makeInOrderVector ++ v :: rest) ++ [(TreeNode.node vr lr rr).rightmostValue]
      rw [hrest]
      simp

/-- C7: `getMin`/`getMax` fail with `EmptyTree` exactly on a null root;
on a non-empty tree they return the first, respectively the last, element
of the in-order sequence. -/
theorem claim_C7 (b : BinaryTree) :
    (b.getMin = Except.error TreeErr.emptyTree ↔ b.root = TreeNode.nil) ∧
      (b.getMax = Except.error TreeErr.emptyTree ↔ b.root = TreeNode.nil) ∧
      (b.root ≠ TreeNode.nil →
        b.getMin = Except.ok (b.root.makeInOrderVector.headD 0) ∧
          b.getMax = Except.ok (b.root.makeInOrderVector.getLastD 0)) := by
  obtain ⟨root, order⟩ := b
  cases root with
  | nil => exact ⟨by simp [BinaryTree.getMin], by simp [BinaryTree.getMax], by simp⟩
  | node v l r =>
    refine ⟨by simp [BinaryTree.getMin], by simp [BinaryTree.getMax], fun _ => ⟨?_, ?_⟩⟩
    · obtain ⟨rest, hrest⟩ :=
        TreeNode.makeInOrderVector_eq_leftmost_cons
          (t := TreeNode.node v l r) (by simp)
      simp [BinaryTree.getMin, hrest]
    · obtain ⟨rest, hrest⟩ :=
        TreeNode.makeInOrderVector_eq_concat_rightmost
          (t := TreeNode.node v l r) (by simp)
      simp [BinaryTree.getMax, hrest]

theorem claim_C7_witness :
    BinaryTree.getMin
        ⟨TreeNode.node 5 (TreeNode.node 3 TreeNode.nil TreeNode.nil)
            (TreeNode.node 8 TreeNode.nil TreeNode.nil), VisitingOrder.InOrder⟩ =
        Except.ok 3 ∧
      BinaryTree.getMax
        ⟨TreeNode.node 5 (TreeNode.node 3 TreeNode.nil TreeNode.nil)
            (TreeNode.node 8 TreeNode.nil TreeNode.nil), VisitingOrder.InOrder⟩ =
        Except.ok 8 := by
  have h :=
    (claim_C7
      ⟨TreeNode.node 5 (TreeNode.node 3 TreeNode.nil TreeNode.nil)
          (TreeNode.node 8 TreeNode.nil TreeNode.nil), VisitingOrder.InOrder⟩).2.2
      (by decide)
  refine ⟨?_, ?_⟩
  · rw [h.1]; rfl
  · rw [h.2]; rfl

theorem TreeNode.insertLoopGo_none :
    ∀ (fuel : Nat) {t : TreeNode} {val : Int}, TreeNode.insertOpt t val = none →
      TreeNode.insertLoopGo val fuel t = none := by
  intro fuel
  induction fuel with
  | zero => intro t val _; rfl
  | succ n ih =>
    intro t val h
    cases t with
    | nil => simp [TreeNode.insertOpt] at h
    | node v l r =>
      simp only [TreeNode.insertOpt] at h
      simp only [TreeNode.insertLoopGo]
      by_cases hgt : val > v
      · rw [if_pos hgt] at h ⊢
        rcases hr : TreeNode.insertOpt r val with _ | rr
        · rw [ih hr]; rfl
        · rw [hr] at h; simp at h
      · by_cases hlt : val < v
        · rw [if_neg hgt, if_pos hlt] at h ⊢
          rcases hl : TreeNode.insertOpt l val with _ | ll
          · rw [ih hl]; rfl
          · rw [hl] at h; simp at h
        · rw [if_neg hgt, if_neg hlt]
          exact ih h

theorem TreeNode.insertLoopGo_eq_insertOpt :
    ∀ (fuel : Nat) {t u : TreeNode} {val : Int}, t.size < fuel →
      TreeNode.insertOpt t val = some u →
      TreeNode.insertLoopGo val fuel t = some u := by
  intro fuel
  induction fuel with
  | zero => intro t u val hf _; omega
  | succ n ih =>
    intro t u val hf h
    cases t with
    | nil =>
      simp only [TreeNode.insertOpt, Option.some.injEq] at h
      subst h
      rfl
    | node v l r =>
      simp only [TreeNode.insertOpt] at h
      simp only [TreeNode.insertLoopGo]
      simp only [TreeNode.size] at hf
      by_cases hgt : val > v
      · rw [if_pos hgt] at h ⊢
        rcases hr : TreeNode.insertOpt r val with _ | rr
        · rw [hr] at h; simp at h
        · rw [hr] at h
          rw [ih (by omega) hr]
          exact h
      · by_cases hlt : val < v
        · rw [if_neg hgt, if_pos hlt] at h ⊢
          rcases hl : TreeNode.insertOpt l val with _ | ll
          · rw [hl] at h; simp at h
          · rw [hl] at h
            rw [ih (by omega) hl]
            exact h
        · rw [if_neg hgt, if_neg hlt] at h
          simp at h

/-- C2: inserting a value already stored on the descent path never
terminates: with value 5 at the root, `insert(5)` leaves the loop spinning —
no amount of fuel makes the while-loop finish — so the claim that every
insertion (duplicates included) terminates at a leaf fails on this code. -/
theorem claim_C2 :
    (∀ fuel : Nat,
        TreeNode.insertLoopGo 5 fuel (TreeNode.node 5 TreeNode.nil TreeNode.nil) =
          none) ∧
      BinaryTree.insert
          ⟨TreeNode.node 5 TreeNode.nil TreeNode.nil, VisitingOrder.InOrder⟩ 5 =
        none :=
  ⟨fun fuel => TreeNode.insertLoopGo_none fuel (by decide), by decide⟩

/-- C1: at the claim's own example — insert 5,3,8,1,4,7,9, then
`deleteElement(5)` — the two-children case copies the successor value 7 into
the root but then `removeNode(node->right)` splices out the right child 8
itself (whose left child is non-null), discarding 8 and its right subtree 9:
the call returns true yet the in-order sequence becomes 1,3,4,7,7 instead of
1,3,4,7,8,9 (8 and 9 lost, 7 duplicated). -/
theorem claim_C1 :
    buildOpt [5, 3, 8, 1, 4, 7, 9] =
      some (TreeNode.node 5
        (TreeNode.node 3 (TreeNode.node 1 TreeNode.nil TreeNode.nil)
          (TreeNode.node 4 TreeNode.nil TreeNode.nil))
        (TreeNode.node 8 (TreeNode.node 7 TreeNode.nil TreeNode.nil)
          (TreeNode.node 9 TreeNode.nil TreeNode.nil))) ∧
      BinaryTree.deleteElement
          ⟨TreeNode.node 5
            (TreeNode.node 3 (TreeNode.node 1 TreeNode.nil TreeNode.nil)
              (TreeNode.node 4 TreeNode.nil TreeNode.nil))
            (TreeNode.node 8 (TreeNode.node 7 TreeNode.nil TreeNode.nil)
              (TreeNode.node 9 TreeNode.nil TreeNode.nil)),
            VisitingOrder.InOrder⟩ 5 =
        (true,
          ⟨TreeNode.node 7
            (TreeNode.node 3 (TreeNode.node 1 TreeNode.nil TreeNode.nil)
              (TreeNode.node 4 TreeNode.nil TreeNode.nil))
            (TreeNode.node 7 TreeNode.nil TreeNode.nil),
            VisitingOrder.InOrder⟩) ∧
      (TreeNode.node 7
        (TreeNode.node 3 (TreeNode.node 1 TreeNode.nil TreeNode.nil)
          (TreeNode.node 4 TreeNode.nil TreeNode.nil))
        (TreeNode.node 7 TreeNode.nil TreeNode.nil)).makeInOrderVector =
        [1, 3, 4, 7, 7] ∧
      ([1, 3, 4, 7, 7] : List Int) ≠ [1, 3, 4, 7, 8, 9] := by
  refine ⟨by decide, by decide, by decide, by decide⟩

/-- C3: the renderer selected by the `InOrder` mode emits the node before
its subtrees (a pre-order sequence) and the one selected by `PreOrder`
emits left subtree, node, right subtree (an in-order sequence); only
`PostOrder` matches its canonical definition.  On the tree with root 2,
left child 1, right child 3, the `InOrder` mode prints " 2 1 3", not the
canonical in-order rendering " 1 2 3" (each token is indeed preceded by a
single space). -/
theorem claim_C3 :
    buildOpt [2, 1, 3] =
      some (TreeNode.node 2 (TreeNode.node 1 TreeNode.nil TreeNode.nil)
        (TreeNode.node 3 TreeNode.nil TreeNode.nil)) ∧
      BinaryTree.print
          ⟨TreeNode.node 2 (TreeNode.node 1 TreeNode.nil TreeNode.nil)
            (TreeNode.node 3 TreeNode.nil TreeNode.nil), VisitingOrder.InOrder⟩ =
        " 2 1 3" ∧
      BinaryTree.print
          ⟨TreeNode.node 2 (TreeNode.node 1 TreeNode.nil TreeNode.nil)
            (TreeNode.node 3 TreeNode.nil TreeNode.nil), VisitingOrder.PreOrder⟩ =
        " 1 2 3" ∧
      BinaryTree.print
          ⟨TreeNode.node 2 (TreeNode.node 1 TreeNode.nil TreeNode.nil)
            (TreeNode.node 3 TreeNode.nil TreeNode.nil), VisitingOrder.PostOrder⟩ =
        " 1 3 2" ∧
      (" 2 1 3" : String) ≠ " 1 2 3" := by
  refine ⟨by decide, by decide, by decide, by decide, by decide⟩

/-- C4: copy assignment does not copy — `operator=` builds a local
`BinaryTree(other)` and returns it without ever writing to `*this` — so
assigning a one-element tree to an empty tree leaves the destination's
in-order sequence `[]`, not `[1]`.  (Copy construction itself does
reproduce the source: on the 7-node example it returns an identical tree
with the same order setting.) -/
theorem claim_C4 :
    BinaryTree.operatorAssignPost BinaryTree.mkEmpty
        ⟨TreeNode.node 1 TreeNode.nil TreeNode.nil, VisitingOrder.InOrder⟩ =
      some BinaryTree.mkEmpty ∧
      BinaryTree.mkEmpty.root.makeInOrderVector = [] ∧
      (TreeNode.node 1 TreeNode.nil TreeNode.nil).makeInOrderVector = [1] ∧
      BinaryTree.copyCtor
          ⟨TreeNode.node 5
            (TreeNode.node 3 (TreeNode.node 1 TreeNode.nil TreeNode.nil)
              (TreeNode.node 4 TreeNode.nil TreeNode.nil))
            (TreeNode.node 8 (TreeNode.node 7 TreeNode.nil TreeNode.nil)
              (TreeNode.node 9 TreeNode.nil TreeNode.nil)),
            VisitingOrder.PostOrder⟩ =
        some
          ⟨TreeNode.node 5
            (TreeNode.node 3 (TreeNode.node 1 TreeNode.nil TreeNode.nil)
              (TreeNode.node 4 TreeNode.nil TreeNode.nil))
            (TreeNode.node 8 (TreeNode.node 7 TreeNode.nil TreeNode.nil)
              (TreeNode.node 9 TreeNode.nil TreeNode.nil)),
            VisitingOrder.PostOrder⟩ ∧
      ([] : List Int) ≠ [1] := by
  refine ⟨?_, by decide, by decide, ?_, by decide⟩
  · simp [BinaryTree.operatorAssignPost, BinaryTree.copyCtor, BinaryTree.copyLoop,
      BinaryTree.mkEmpty, TreeNode.insertOpt]
  · simp [BinaryTree.copyCtor, BinaryTree.copyLoop, TreeNode.insertOpt]

theorem tdiv2_between {low high : Int} (h : low ≤ high) :
    low ≤ (low + high).tdiv 2 ∧ (low + high).tdiv 2 ≤ high := by
  rcases le_or_lt 0 (low + high) with hs | hs
  · rw [Int.tdiv_eq_ediv hs (by norm_num)]
    omega
  · have hrw : low + high = -(-(low + high)) := by ring
    rw [hrw, Int.neg_tdiv, Int.tdiv_eq_ediv (by omega) (by norm_num)]
    omega

theorem take_drop_middle_concat (v : List Int) (a m hh : Nat)
    (ham : a ≤ m) (hmh : m ≤ hh) (hlen : m < v.length) :
    (v.drop a).take (m - a) ++ v.getD m 0 :: (v.drop (m + 1)).take (hh - m) =
      (v.drop a).take (hh + 1 - a) := by
  rw [show hh + 1 - a = (m - a) + (hh + 1 - m) from by omega, List.take_add]
  congr 1
  rw [List.drop_drop, show a + (m - a) = m from by omega,
    List.drop_eq_getElem_cons hlen,
    show hh + 1 - m = (hh - m) + 1 from by omega, List.take_succ_cons,
    List.getD_eq_getElem v 0 hlen]

theorem makeNode_makeInOrderVector :
    ∀ (low high : Int) (v : List Int), 0 ≤ low → high < (v.length : Int) →
      (makeNode low high v).makeInOrderVector =
        (v.drop low.toNat).take (high + 1 - low).toNat := by
  intro low high v
  induction low, high, v using makeNode.induct with
  | case1 low high v hgt =>
    intro _ _
    rw [makeNode, if_pos hgt]
    rw [show (high + 1 - low).toNat = 0 from by omega]
    simp [TreeNode.makeInOrderVector]
  | case2 low high v hgt ih1 ih2 =>
    intro hlow hlen
    rw [not_lt] at hgt
    obtain ⟨hm1, hm2⟩ := tdiv2_between hgt
    rw [makeNode, if_neg (not_lt.mpr hgt)]
    simp only [TreeNode.makeInOrderVector]
    rw [ih1 hlow (by omega), ih2 (by omega) (by omega)]
    have hmid : ((low + high).tdiv 2).toNat < v.length := by omega
    have := take_drop_middle_concat v low.toNat ((low + high).tdiv 2).toNat
      high.toNat (by omega) (by omega) hmid
    rw [show ((low + high).tdiv 2 - 1 + 1 - low).toNat =
          ((low + high).tdiv 2).toNat - low.toNat from by omega,
        show ((low + high).tdiv 2 + 1).toNat =
          ((low + high).tdiv 2).toNat + 1 from by omega,
        show (high + 1 - ((low + high).tdiv 2 + 1)).toNat =
          high.toNat - ((low + high).tdiv 2).toNat from by omega,
        show (high + 1 - low).toNat = high.toNat + 1 - low.toNat from by omega]
    exact this

theorem makeNode_height :
    ∀ (low high : Int) (v : List Int), 0 ≤ low →
      (makeNode low high v).recursiveGetHeight ≤
        Nat.clog 2 ((high + 1 - low).toNat + 1) := by
  intro low high v
  induction low, high, v using makeNode.induct with
  | case1 low high v hgt =>
    intro _
    rw [makeNode, if_pos hgt]
    simp [TreeNode.recursiveGetHeight]
  | case2 low high v hgt ih1 ih2 =>
    intro hlow
    rw [not_lt] at hgt
    obtain ⟨hm1, hm2⟩ := tdiv2_between hgt
    have h1 := ih1 hlow
    have h2 := ih2 (by omega)
    rw [makeNode, if_neg (not_lt.mpr hgt)]
    simp only [TreeNode.recursiveGetHeight]
    have hmd2 : (low + high).tdiv 2 = (low + high) / 2 :=
      Int.tdiv_eq_ediv (by omega) (by norm_num)
    rw [hmd2] at h1 h2 hm1 hm2 ⊢
    have hb1 : ((low + high) / 2 - 1 + 1 - low).toNat + 1 ≤
        (high + 1 - low).toNat / 2 + 1 := by omega
    have hb2 : (high + 1 - ((low + high) / 2 + 1)).toNat + 1 ≤
        (high + 1 - low).toNat / 2 + 1 := by omega
    have hc1 := h1.trans (Nat.clog_mono_right 2 hb1)
    have hc2 := h2.trans (Nat.clog_mono_right 2 hb2)
    have hrec := Nat.clog_of_two_le (b := 2) (n := (high + 1 - low).toNat + 1)
      (by norm_num) (by omega)
    rw [show ((high + 1 - low).toNat + 1 + 2 - 1) / 2 =
        (high + 1 - low).toNat / 2 + 1 from by omega] at hrec
    omega

/-- C10: `balance()` on an empty tree terminates and leaves the tree empty:
`v.size() - 1` wraps around in `size_t` to `2^64 - 1`, the narrowing
conversion to the `int` parameter yields `-1`, and `makeNode(0, -1, [])`
returns null through its `low > high` guard without touching the vector. -/
theorem claim_C10 (order : VisitingOrder) :
    BinaryTree.balance ⟨TreeNode.nil, order⟩ = ⟨TreeNode.nil, order⟩ ∧
      sizeTsub1 0 = 2 ^ 64 - 1 ∧
      int32ofNat (sizeTsub1 0) = -1 ∧
      makeNode 0 (-1) [] = TreeNode.nil := by
  have h1 : sizeTsub1 0 = 2 ^ 64 - 1 := by norm_num [sizeTsub1]
  have h2 : int32ofNat (sizeTsub1 0) = -1 := by norm_num [h1, int32ofNat]
  have h3 : makeNode 0 (-1) [] = TreeNode.nil := by rw [makeNode]; norm_num
  refine ⟨?_, h1, h2, h3⟩
  show ⟨makeNode 0 (int32ofNat (sizeTsub1
      (TreeNode.nil.makeInOrderVector).length)) TreeNode.nil.makeInOrderVector,
    order⟩ = (⟨TreeNode.nil, order⟩ : BinaryTree)
  rw [show TreeNode.nil.makeInOrderVector = ([] : List Int) from rfl]
  simp only [List.length_nil, h2, h3]

/-- C8: for a tree of `n` stored elements, with `n ≤ 2^30` so that every
`low + high` the rebuild computes stays within the source's 32-bit `int`
range (larger trees would overflow the `int` midpoint arithmetic),
`balance()` leaves the in-order sequence unchanged and the height
afterwards is at most `⌈log2(n+1)⌉` (`Nat.clog 2 (n+1)`); each rebuilt
node takes the value at index `(low + high) / 2` of its sub-range —
integer division truncating toward zero, hence the lower middle of an
even-length range. -/
theorem claim_C8 (b : BinaryTree)
    (hn : b.root.makeInOrderVector.length ≤ 2 ^ 30) :
    (BinaryTree.balance b).root.makeInOrderVector = b.root.makeInOrderVector ∧
      (BinaryTree.balance b).getHeight ≤
        Nat.clog 2 (b.root.makeInOrderVector.length + 1) ∧
      ∀ (low high : Int) (v : List Int),
        makeNode low high v =
          if low > high then TreeNode.nil
          else
            TreeNode.node (v.getD ((low + high).tdiv 2).toNat 0)
              (makeNode low ((low + high).tdiv 2 - 1) v)
              (makeNode ((low + high).tdiv 2 + 1) high v) := by
  have hpick : ∀ (low high : Int) (v : List Int),
      makeNode low high v =
        if low > high then TreeNode.nil
        else
          TreeNode.node (v.getD ((low + high).tdiv 2).toNat 0)
            (makeNode low ((low + high).tdiv 2 - 1) v)
            (makeNode ((low + high).tdiv 2 + 1) high v) := by
    intro low high v
    rw [makeNode]
  set v := b.root.makeInOrderVector with hv
  have hhigh : int32ofNat (sizeTsub1 v.length) = (v.length : Int) - 1 := by
    rcases Nat.eq_zero_or_pos v.length with h0 | hpos
    · rw [h0]
      norm_num [sizeTsub1, int32ofNat]
    · have hs : sizeTsub1 v.length = v.length - 1 := by
        unfold sizeTsub1
        omega
      rw [hs]
      unfold int32ofNat
      rw [if_pos (by omega)]
      omega
  have hroot : (BinaryTree.balance b).root = makeNode 0 ((v.length : Int) - 1) v := by
    show makeNode 0 (int32ofNat (sizeTsub1 v.length)) v =
      makeNode 0 ((v.length : Int) - 1) v
    rw [hhigh]
  refine ⟨?_, ?_, hpick⟩
  · rw [hroot, makeNode_makeInOrderVector 0 ((v.length : Int) - 1) v (by omega)
      (by omega)]
    simp only [Int.toNat_zero, List.drop_zero]
    rw [show ((v.length : Int) - 1 + 1 - 0).toNat = v.length from by omega,
      List.take_length]
  · show (BinaryTree.balance b).root.recursiveGetHeight ≤ _
    rw [hroot]
    have := makeNode_height 0 ((v.length : Int) - 1) v (by omega)
    rwa [show ((v.length : Int) - 1 + 1 - 0).toNat = v.length from by omega] at this

theorem claim_C8_witness :
    (BinaryTree.balance
          ⟨TreeNode.node 1 TreeNode.nil
            (TreeNode.node 2 TreeNode.nil
              (TreeNode.node 3 TreeNode.nil
                (TreeNode.node 4 TreeNode.nil TreeNode.nil))),
            VisitingOrder.InOrder⟩).root.makeInOrderVector =
        (TreeNode.node 1 TreeNode.nil
          (TreeNode.node 2 TreeNode.nil
            (TreeNode.node 3 TreeNode.nil
              (TreeNode.node 4 TreeNode.nil TreeNode.nil)))).makeInOrderVector ∧
      (BinaryTree.balance
          ⟨TreeNode.node 1 TreeNode.nil
            (TreeNode.node 2 TreeNode.nil
              (TreeNode.node 3 TreeNode.nil
                (TreeNode.node 4 TreeNode.nil TreeNode.nil))),
            VisitingOrder.InOrder⟩).getHeight ≤
        Nat.clog 2
          ((TreeNode.node 1 TreeNode.nil
            (TreeNode.node 2 TreeNode.nil
              (TreeNode.node 3 TreeNode.nil
                (TreeNode.node 4 TreeNode.nil TreeNode.nil)))).makeInOrderVector.length
            + 1) := by
  have h := claim_C8
    ⟨TreeNode.node 1 TreeNode.nil
      (TreeNode.node 2 TreeNode.nil
        (TreeNode.node 3 TreeNode.nil
          (TreeNode.node 4 TreeNode.nil TreeNode.nil))),
      VisitingOrder.InOrder⟩ (by decide)
  exact ⟨h.1, h.2.1⟩

theorem foldl_insertOpt_isSome :
    ∀ (vs : List Int) (t0 : TreeNode),
      (∀ x ∈ vs, TreeNode.memT x t0 = false) → vs.Nodup →
      ∃ t, List.foldlM TreeNode.insertOpt t0 vs = some t := by
  intro vs
  induction vs with
  | nil => intro t0 _ _; exact ⟨t0, rfl⟩
  | cons a as ih =>
    intro t0 hmem hnd
    obtain ⟨t1, h1⟩ :=
      TreeNode.insertOpt_isSome_of_not_memT (hmem a (by simp))
    have hm1 : ∀ x ∈ as, TreeNode.memT x t1 = false := by
      intro x hx
      cases hx1 : TreeNode.memT x t1
      · rfl
      · rcases (TreeNode.memT_insertOpt h1 x).mp hx1 with rfl | hx0
        · exact absurd hx (List.nodup_cons.mp hnd).1
        · rw [hmem x (by simp [hx])] at hx0
          cases hx0
    obtain ⟨t, ht⟩ := ih t1 hm1 (List.nodup_cons.mp hnd).2
    refine ⟨t, ?_⟩
    rw [List.foldlM_cons, h1]
    simpa using ht

theorem buildOpt_isSome_of_nodup (vs : List Int) (hnd : vs.Nodup) :
    ∃ t, buildOpt vs = some t :=
  foldl_insertOpt_isSome vs TreeNode.nil (fun x _ => rfl) hnd
